import Mathlib

/-!
Shallow embedding of `src/example_read_clu.ipynb` (networkx_pajek_util):
the Pajek `.clu` community-partition parser `parse_pajek_communities` and
the generator `generate_pajek_communities`.

Lines of text are modelled as `List Char` (a Python `str` is a sequence of
code points).  Python string primitives used by the source (`str.split()`,
`str.lower()`, `str.startswith`, `str.rstrip('\n')`, `int(...)`) are given
executable models below.  Simplifications of `int(...)`: Python additionally
accepts underscore digit-group separators and non-ASCII digits; no claim
depends on those, and the whitespace-stripping and sign handling that the
claims do depend on are modelled faithfully.
-/

namespace PajekClu

/-- A line of text: a Python string as a list of characters. -/
abbrev Line := List Char

/-- The ASCII whitespace characters recognised by Python's `str.split()` and
`int()` stripping (space, tab, LF, CR, VT, FF). -/
def isPySpace (c : Char) : Bool :=
  c == ' ' || c == '\t' || c == '\n' || c == '\r' || c == '\x0b' || c == '\x0c'

/-- Python `str.lower()` (ASCII case mapping suffices for the keyword test). -/
def pyLower (s : Line) : Line := s.map Char.toLower

/-- `lStartsWith s p` models Python `s.startswith(p)`. -/
def lStartsWith : Line → Line → Bool
  | _, [] => true
  | [], _ :: _ => false
  | c :: s, d :: p => c == d && lStartsWith s p

/-- Worker for `pySplit`: `acc` is the (reversed) word currently being read. -/
def pySplitAux : Line → Line → List Line
  | [], acc => if acc.isEmpty then [] else [acc.reverse]
  | c :: cs, acc =>
    if isPySpace c then
      if acc.isEmpty then pySplitAux cs [] else acc.reverse :: pySplitAux cs []
    else pySplitAux cs (c :: acc)

/-- Python `str.split()` with no argument: split on runs of whitespace,
discarding leading and trailing whitespace. -/
def pySplit (s : Line) : List Line := pySplitAux s []

/-- Python `str.strip()` of whitespace as performed by `int(...)`. -/
def pyStrip (s : Line) : Line :=
  ((s.dropWhile isPySpace).reverse.dropWhile isPySpace).reverse

/-- ASCII decimal digit test. -/
def isDigitC (c : Char) : Bool := '0' ≤ c && c ≤ '9'

/-- Value of an ASCII digit string, most significant digit first. -/
def digitsVal (ds : Line) : Nat := ds.foldl (fun a c => 10 * a + (c.toNat - 48)) 0

/-- A nonempty all-digit string evaluates to its value; anything else is rejected. -/
def digitsOpt (ds : Line) : Option Nat :=
  if !ds.isEmpty && ds.all isDigitC then some (digitsVal ds) else none

/-- The sign-and-digits grammar of Python `int(s)` after whitespace stripping. -/
def pyIntCore : Line → Option Int
  | [] => none
  | c :: ds =>
    if c = '-' then (digitsOpt ds).map (fun n => -(n : Int))
    else if c = '+' then (digitsOpt ds).map (fun n => (n : Int))
    else (digitsOpt (c :: ds)).map (fun n => (n : Int))

/-- Python `int(s)`: strip whitespace, optional single sign, nonempty digits.
`none` models the `ValueError` raised on anything else. -/
def pyInt (s : Line) : Option Int := pyIntCore (pyStrip s)

/-- Python `line.rstrip('\n')`: drop trailing newline characters only. -/
def rstripLF (l : Line) : Line := (l.reverse.dropWhile (· == '\n')).reverse

/-- ASCII digit character for a value `d < 10`. -/
def digitChar (d : Nat) : Char := Char.ofNat (48 + d)

/-- Fuel-indexed decimal formatter (the fuel makes the recursion structural). -/
def natReprAux : Nat → Nat → Line
  | 0, _ => []
  | fuel + 1, n =>
    if n < 10 then [digitChar n] else natReprAux fuel (n / 10) ++ [digitChar (n % 10)]

/-- Decimal numeral of `n`, as produced by Python's `f"{n}"`. -/
def natRepr (n : Nat) : Line := natReprAux (n + 1) n

/-- The header test of the source: `l.lower().startswith("*vertices")`.
Note this is a prefix test on the whole line, not a token-equality test. -/
def isHeaderLine (l : Line) : Bool := lStartsWith (pyLower l) ("*vertices".toList)

/-- Outcomes of `parse_pajek_communities` other than success, matching the
Python exceptions: `malformedHeader` is the `ValueError` from unpacking
`l.split()` into two names or from `int(nnodes)`; `invalidLabel` is the
`ValueError` from `int(l)` on a body line; `prematureEOF` is the
`StopIteration` escaping from `next(lines)` inside the body loop;
`unboundLocal` is the `UnboundLocalError` at the final `return` when no
header section was ever parsed, so `communities` was never assigned. -/
inductive ParseErr where
  | malformedHeader
  | invalidLabel
  | prematureEOF
  | unboundLocal
  deriving DecidableEq, Repr

/-- The `communities` variable: a `defaultdict(list)` over `int` labels, i.e.
an insertion-ordered association list from label to the list of vertices. -/
abbrev Assoc := List (Int × List Nat)

/-- `communities.setdefault(community, []).append(vertex)`: append `v` to the
entry of label `lab`, creating the entry at the end on first appearance. -/
def addVertex : Assoc → Int → Nat → Assoc
  | [], lab, v => [(lab, [v])]
  | (k, vs) :: rest, lab, v =>
    if k = lab then (k, vs ++ [v]) :: rest else (k, vs) :: addVertex rest lab v

/-- Header processing: `l, nnodes = l.split()` (exactly two tokens, else
`ValueError`) followed by `int(nnodes)`. -/
def headerN (l : Line) : Except ParseErr Int :=
  match pySplit l with
  | [_, tok] =>
    match pyInt tok with
    | some z => .ok z
    | none => .error .malformedHeader
  | _ => .error .malformedHeader

/-- The body loop `for vertex in range(int(nnodes)): l = next(lines);
community = int(l); communities.setdefault(community, []).append(vertex)`.
First argument: assignments still to read; second: the current vertex
counter; returns the updated `communities` and the unconsumed lines. -/
def readBody : Nat → Nat → Assoc → List Line → Except ParseErr (Assoc × List Line)
  | 0, _, m, ls => .ok (m, ls)
  | _ + 1, _, _, [] => .error .prematureEOF
  | n + 1, v, m, l :: ls =>
    match pyInt l with
    | none => .error .invalidLabel
    | some lab => readBody n (v + 1) (addVertex m lab v) ls

/-- Error-propagating sequencing on `Except` (explicit so proofs rewrite well). -/
def ebind : Except ParseErr α → (α → Except ParseErr β) → Except ParseErr β
  | .error e, _ => .error e
  | .ok a, f => f a

@[simp] theorem ebind_error (e : ParseErr) (f : α → Except ParseErr β) :
    ebind (.error e) f = .error e := rfl

@[simp] theorem ebind_ok (a : α) (f : α → Except ParseErr β) :
    ebind (.ok a) f = f a := rfl

/-- The `while lines:` loop.  The state is the `communities` variable:
`none` while it is still unassigned.  The first argument is fuel making the
recursion structural; `parse_pajek_communities` supplies `lines.length`,
which is always sufficient because every iteration consumes at least one
line (`parseLoopF_fuel_irrel` below makes this precise). -/
def parseLoopF : Nat → List Line → Option Assoc → Except ParseErr Assoc
  | _, [], none => .error .unboundLocal
  | _, [], some m => .ok m
  | 0, _ :: _, none => .error .unboundLocal
  | 0, _ :: _, some m => .ok m
  | fuel + 1, l :: rest, st =>
    if isHeaderLine l then
      ebind (headerN l) (fun z =>
        ebind (readBody z.toNat 0 [] rest) (fun p => parseLoopF fuel p.2 (some p.1)))
    else
      match st with
      | none => .error .unboundLocal
      | some m => .ok m

/-- `parse_pajek_communities(lines)` on an iterable of lines: rstrip each
line of `'\n'`, run the section loop, and return
`[v for k, v in dict(communities).items()]`. -/
def parse_pajek_communities (lines : List Line) : Except ParseErr (List (List Nat)) :=
  (parseLoopF lines.length (lines.map rstripLF) none).map (fun m => m.map Prod.snd)

/-- `nnodes = sum([len(vertex) for vertex in communities])`. -/
def nVerts (P : List (List Nat)) : Nat := (P.map List.length).sum

/-- Python `min` over a list of naturals (`none` models the `ValueError`
on an empty list). -/
def listMin : List Nat → Option Nat
  | [] => none
  | x :: xs =>
    match listMin xs with
    | none => some x
    | some m => some (Nat.min x m)

/-- `next(i for i, v in enumerate(communities_list) if vertex in v)`: index of
the first list containing `vertex` (`none` models the `StopIteration`). -/
def findCommunity (vertex : Nat) : List (List Nat) → Option Nat
  | [] => none
  | l :: rest => if vertex ∈ l then some 0 else (findCommunity vertex rest).map (· + 1)

/-- Python `list.remove(v)`: remove the first occurrence of `v`. -/
def removeFirst : List Nat → Nat → List Nat
  | [], _ => []
  | x :: xs, v => if x = v then xs else x :: removeFirst xs v

/-- In-place update of the list at one index (`communities_list[community]`). -/
def modifyIdx (f : α → α) : Nat → List α → List α
  | _, [] => []
  | 0, a :: as => f a :: as
  | n + 1, a :: as => a :: modifyIdx f n as

/-- The `for n in range(0, nnodes)` loop of the generator: find the global
minimum vertex over the non-empty working lists, find its community, emit the
1-based community number, remove the vertex.  `none` models the exception
when every working list is empty or the vertex is found in no list. -/
def genLoop : Nat → List (List Nat) → Option (List Line)
  | 0, _ => some []
  | n + 1, cl =>
    (listMin (cl.filterMap listMin)).bind (fun vertex =>
      (findCommunity vertex cl).bind (fun community =>
        (genLoop n (modifyIdx (fun l => removeFirst l vertex) community cl)).map
          (fun rest => natRepr (community + 1) :: rest)))

/-- The header line `f"*Vertices {nnodes}"`. -/
def headerLine (n : Nat) : Line := "*Vertices ".toList ++ natRepr n

/-- `generate_pajek_communities(communities)`: the full (finite) sequence of
yielded lines, or `none` if some step raises. -/
def generate_pajek_communities (communities : List (List Nat)) : Option (List Line) :=
  (genLoop (nVerts communities) communities).map
    (fun body => headerLine (nVerts communities) :: body)

/-- Invariant I1 of the spec: across all Communities the vertex indices are
exactly `{0, ..., N-1}` with no duplicates and no gaps (`N = nVerts P`).
Stated with bounded quantifiers so that it is decidable on concrete data. -/
def I1 (P : List (List Nat)) : Prop :=
  P.flatten.Nodup ∧ (∀ v ∈ P.flatten, v < nVerts P) ∧ (∀ v, v < nVerts P → v ∈ P.flatten)

instance (P : List (List Nat)) : Decidable (I1 P) := by
  unfold I1
  infer_instance

/-- Index of the community owning vertex `v` (total version; under I1 the
underlying search succeeds and the index is unique). -/
def ownerIdx (P : List (List Nat)) (v : Nat) : Nat := (findCommunity v P).getD 0

/-- Worker for `firstAppear`; `seen` is the set of labels already emitted. -/
def faAux (seen : List Int) : List Int → List Int
  | [] => []
  | x :: xs => if x ∈ seen then faAux seen xs else x :: faAux (x :: seen) xs

/-- The distinct labels of `labs` in order of first appearance (the key order
of an insertion-ordered dict built left to right). -/
def firstAppear (labs : List Int) : List Int := faAux [] labs

/-- The 0-based positions at which label `L` occurs in `labs`, ascending. -/
def positionsOf (L : Int) (labs : List Int) : List Nat :=
  (List.range labs.length).filter (fun i => labs[i]? == some L)

/-- `communities` after the body loop has processed the labels `labs`
starting at vertex counter `v`. -/
def buildAssoc : List Int → Nat → Assoc → Assoc
  | [], _, m => m
  | L :: ls, v, m => buildAssoc ls (v + 1) (addVertex m L v)

/-! ### Lemmas about the string primitives -/

theorem dropWhile_eq_self_of_neg {α} {p : α → Bool} {l : List α}
    (h : ∀ a ∈ l, p a = false) : l.dropWhile p = l := by
  cases l with
  | nil => rfl
  | cons a as => simp [List.dropWhile_cons, h a (List.mem_cons_self a as)]

theorem dropWhile_eq_nil_of_pos {α} {p : α → Bool} {l : List α}
    (h : ∀ a ∈ l, p a = true) : l.dropWhile p = [] := by
  induction l with
  | nil => rfl
  | cons a as ih =>
    simp only [List.dropWhile_cons, h a (List.mem_cons_self a as), if_true]
    exact ih fun b hb => h b (List.mem_cons_of_mem a hb)

theorem mem_of_mem_takeWhile {α} {p : α → Bool} {l : List α} {a : α}
    (h : a ∈ l.takeWhile p) : p a = true := by
  induction l with
  | nil => simp [List.takeWhile] at h
  | cons x xs ih =>
    rw [List.takeWhile_cons] at h
    by_cases hx : p x = true
    · rw [if_pos hx] at h
      rcases List.mem_cons.mp h with rfl | h
      · exact hx
      · exact ih h
    · rw [if_neg hx] at h
      simp at h

@[simp] theorem lStartsWith_nil (s : Line) : lStartsWith s [] = true := by
  cases s <;> rfl

theorem lStartsWith_append_of_true {s p t : Line} (h : lStartsWith s p = true) :
    lStartsWith (s ++ t) p = true := by
  induction p generalizing s with
  | nil => simp
  | cons d p ih =>
    cases s with
    | nil => simp [lStartsWith] at h
    | cons c s =>
      simp only [List.cons_append, lStartsWith, Bool.and_eq_true] at h ⊢
      exact ⟨h.1, ih h.2⟩

theorem lStartsWith_append_junk {p : Line} : ∀ {core junk : Line},
    (∀ c ∈ junk, c ∉ p) → lStartsWith (core ++ junk) p = lStartsWith core p := by
  induction p with
  | nil => intro core junk _; simp
  | cons d p ih =>
    intro core junk hjunk
    cases core with
    | nil =>
      cases junk with
      | nil => rfl
      | cons j js =>
        have hne : j ≠ d := fun h =>
          (hjunk j (List.mem_cons_self j js)) (h ▸ List.mem_cons_self d p)
        simp [lStartsWith, hne]
    | cons c core =>
      simp only [List.cons_append, lStartsWith, List.append_eq]
      rw [ih fun x hx hmem => hjunk x hx (List.mem_cons_of_mem d hmem)]

theorem pySplitAux_word {w : Line} (h : ∀ c ∈ w, isPySpace c = false) :
    ∀ (rest acc : Line), pySplitAux (w ++ rest) acc = pySplitAux rest (w.reverse ++ acc) := by
  induction w with
  | nil => intro rest acc; rfl
  | cons c cs ih =>
    intro rest acc
    simp only [List.cons_append, pySplitAux, List.append_eq, h c (List.mem_cons_self c cs),
      Bool.false_eq_true, if_false]
    rw [ih (fun d hd => h d (List.mem_cons_of_mem c hd)) rest (c :: acc)]
    simp [List.append_assoc]

theorem pySplitAux_allspace {w : Line} (h : ∀ c ∈ w, isPySpace c = true) :
    ∀ acc, pySplitAux w acc = if acc.isEmpty then [] else [acc.reverse] := by
  induction w with
  | nil => intro acc; rfl
  | cons c cs ih =>
    intro acc
    have ih0 := ih (fun d hd => h d (List.mem_cons_of_mem c hd)) []
    simp only [List.isEmpty_nil, if_true] at ih0
    simp only [pySplitAux, h c (List.mem_cons_self c cs), if_true, ih0]

theorem pySplitAux_append_space {junk : Line} (h : ∀ c ∈ junk, isPySpace c = true) :
    ∀ (s acc : Line), pySplitAux (s ++ junk) acc = pySplitAux s acc := by
  intro s
  induction s with
  | nil =>
    intro acc
    rw [List.nil_append, pySplitAux_allspace h]
    cases acc <;> rfl
  | cons c cs ih =>
    intro acc
    by_cases hc : isPySpace c = true <;>
      simp only [List.cons_append, pySplitAux, List.append_eq, hc, Bool.false_eq_true, if_true,
        if_false] <;>
      cases acc <;> simp [ih]

theorem pySplit_append_space {s junk : Line} (h : ∀ c ∈ junk, isPySpace c = true) :
    pySplit (s ++ junk) = pySplit s :=
  pySplitAux_append_space h s []

theorem pySplit_two_words {w d : Line} (hw : ∀ c ∈ w, isPySpace c = false)
    (hwne : w ≠ []) (hd : ∀ c ∈ d, isPySpace c = false) (hdne : d ≠ []) :
    pySplit (w ++ ' ' :: d) = [w, d] := by
  unfold pySplit
  rw [pySplitAux_word hw, List.append_nil]
  have hwr : w.reverse.isEmpty = false := by
    cases hrev : w.reverse with
    | nil => exact absurd (List.reverse_eq_nil_iff.mp hrev) hwne
    | cons a as => rfl
  show pySplitAux (' ' :: d) w.reverse = [w, d]
  simp only [pySplitAux, show isPySpace ' ' = true from rfl, if_true, hwr, Bool.false_eq_true,
    if_false]
  have : pySplitAux d [] = [d] := by
    have := pySplitAux_word hd [] []
    rw [List.append_nil, List.append_nil] at this
    rw [this, pySplitAux_allspace (by intro c hc; simp at hc)]
    have : d.reverse.isEmpty = false := by
      cases hrev : d.reverse with
      | nil => exact absurd (List.reverse_eq_nil_iff.mp hrev) hdne
      | cons a as => rfl
    simp [this]
  rw [this, List.reverse_reverse]

theorem pyStrip_append_space {s junk : Line} (h : ∀ c ∈ junk, isPySpace c = true) :
    pyStrip (s ++ junk) = pyStrip s := by
  unfold pyStrip
  rw [List.dropWhile_append]
  by_cases he : (s.dropWhile isPySpace).isEmpty
  · rw [if_pos he]
    rw [List.isEmpty_iff] at he
    rw [dropWhile_eq_nil_of_pos h, he]
  · rw [if_neg he, List.reverse_append,
      List.dropWhile_append_of_pos (fun a ha => h a (List.mem_reverse.mp ha))]

theorem pyStrip_nospace {s : Line} (h : ∀ c ∈ s, isPySpace c = false) : pyStrip s = s := by
  unfold pyStrip
  rw [dropWhile_eq_self_of_neg h,
    dropWhile_eq_self_of_neg (fun a ha => h a (List.mem_reverse.mp ha)),
    List.reverse_reverse]

theorem rstripLF_decomp (l : Line) :
    ∃ junk, (∀ c ∈ junk, c = '\n') ∧ l = rstripLF l ++ junk := by
  refine ⟨(l.reverse.takeWhile (· == '\n')).reverse, ?_, ?_⟩
  · intro c hc
    have := mem_of_mem_takeWhile (List.mem_reverse.mp hc)
    exact eq_of_beq this
  · conv_lhs => rw [← List.reverse_reverse l,
      ← List.takeWhile_append_dropWhile (· == '\n') l.reverse]
    rw [List.reverse_append]
    rfl

theorem rstripLF_eq_self {l : Line} (h : ∀ c ∈ l, c ≠ '\n') : rstripLF l = l := by
  unfold rstripLF
  rw [dropWhile_eq_self_of_neg, List.reverse_reverse]
  intro a ha
  simpa using h a (List.mem_reverse.mp ha)

theorem rstripLF_concat_ne {l : Line} {c : Char} (h : c ≠ '\n') :
    rstripLF (l ++ [c]) = l ++ [c] := by
  unfold rstripLF
  rw [List.reverse_append]
  show ((c :: l.reverse).dropWhile (· == '\n')).reverse = l ++ [c]
  rw [List.dropWhile_cons]
  simp [h]

theorem isHeaderLine_append_junk {core junk : Line} (h : ∀ c ∈ junk, c = '\n' ∨ c = '\r') :
    isHeaderLine (core ++ junk) = isHeaderLine core := by
  unfold isHeaderLine pyLower
  rw [List.map_append]
  apply lStartsWith_append_junk
  intro c hc hmem
  obtain ⟨c0, hc0, rfl⟩ := List.mem_map.mp hc
  rcases h c0 hc0 with h0 | h0 <;> subst h0 <;> revert hmem <;> decide

theorem isHeaderLine_headerLine (n : Nat) : isHeaderLine (headerLine n) = true := by
  unfold headerLine isHeaderLine pyLower
  rw [List.map_append]
  apply lStartsWith_append_of_true
  decide

/-! ### Decimal formatting and parsing -/

theorem digitChar_isDigit {d : Nat} (h : d < 10) : isDigitC (digitChar d) = true := by
  interval_cases d <;> decide

theorem digitChar_val {d : Nat} (h : d < 10) : (digitChar d).toNat - 48 = d := by
  interval_cases d <;> decide

theorem digitsVal_concat (xs : Line) (c : Char) :
    digitsVal (xs ++ [c]) = 10 * digitsVal xs + (c.toNat - 48) := by
  unfold digitsVal
  rw [List.foldl_append]
  rfl

theorem digitsVal_singleton_digit {d : Nat} (h : d < 10) : digitsVal [digitChar d] = d := by
  have : digitsVal [digitChar d] = 10 * digitsVal [] + ((digitChar d).toNat - 48) :=
    digitsVal_concat [] (digitChar d)
  rw [this, digitChar_val h]
  simp [digitsVal]

theorem natReprAux_spec : ∀ fuel n, n < 10 ^ (fuel + 1) →
    (∀ c ∈ natReprAux (fuel + 1) n, isDigitC c = true) ∧ natReprAux (fuel + 1) n ≠ [] ∧
      digitsVal (natReprAux (fuel + 1) n) = n := by
  intro fuel
  induction fuel with
  | zero =>
    intro n hn
    have h10 : n < 10 := by simpa using hn
    have heq : natReprAux (0 + 1) n = [digitChar n] := by
      show (if n < 10 then [digitChar n] else _) = _
      rw [if_pos h10]
    rw [heq]
    refine ⟨?_, by simp, digitsVal_singleton_digit h10⟩
    intro c hc
    rcases List.mem_singleton.mp hc with rfl
    exact digitChar_isDigit h10
  | succ fuel ih =>
    intro n hn
    by_cases h10 : n < 10
    · have heq : natReprAux (fuel + 1 + 1) n = [digitChar n] := by
        show (if n < 10 then [digitChar n] else _) = _
        rw [if_pos h10]
      rw [heq]
      refine ⟨?_, by simp, digitsVal_singleton_digit h10⟩
      intro c hc
      rcases List.mem_singleton.mp hc with rfl
      exact digitChar_isDigit h10
    · have hdiv : n / 10 < 10 ^ (fuel + 1) := by
        rw [Nat.div_lt_iff_lt_mul (by norm_num)]
        calc n < 10 ^ (fuel + 1 + 1) := hn
        _ = 10 ^ (fuel + 1) * 10 := by ring
      obtain ⟨ihd, ihne, ihval⟩ := ih (n / 10) hdiv
      have heq : natReprAux (fuel + 1 + 1) n
          = natReprAux (fuel + 1) (n / 10) ++ [digitChar (n % 10)] := by
        show (if n < 10 then _ else natReprAux (fuel + 1) (n / 10) ++ [digitChar (n % 10)]) = _
        rw [if_neg h10]
      rw [heq]
      refine ⟨?_, by simp, ?_⟩
      · intro c hc
        rcases List.mem_append.mp hc with hc | hc
        · exact ihd c hc
        · rcases List.mem_singleton.mp hc with rfl
          exact digitChar_isDigit (Nat.mod_lt n (by norm_num))
      · rw [digitsVal_concat, ihval, digitChar_val (Nat.mod_lt n (by norm_num))]
        exact Nat.div_add_mod n 10

theorem natRepr_spec (n : Nat) :
    (∀ c ∈ natRepr n, isDigitC c = true) ∧ natRepr n ≠ [] ∧ digitsVal (natRepr n) = n :=
  natReprAux_spec n n
    (lt_of_lt_of_le (Nat.lt_pow_self (by norm_num) n)
      (Nat.pow_le_pow_right (by norm_num) n.le_succ))

theorem isDigit_not_space {c : Char} (h : isDigitC c = true) : isPySpace c = false := by
  simp only [isDigitC, Bool.and_eq_true, decide_eq_true_eq] at h
  simp only [isPySpace, Bool.or_eq_false_iff, beq_eq_false_iff_ne, ne_eq]
  refine ⟨⟨⟨⟨⟨?_, ?_⟩, ?_⟩, ?_⟩, ?_⟩, ?_⟩ <;> rintro rfl <;> exact absurd h (by decide)

theorem isDigit_not_sign {c : Char} (h : isDigitC c = true) : c ≠ '-' ∧ c ≠ '+' := by
  simp only [isDigitC, Bool.and_eq_true, decide_eq_true_eq] at h
  constructor <;> rintro rfl <;> exact absurd h (by decide)

theorem isDigit_not_lf {c : Char} (h : isDigitC c = true) : c ≠ '\n' := by
  simp only [isDigitC, Bool.and_eq_true, decide_eq_true_eq] at h
  rintro rfl; exact absurd h (by decide)

theorem pyIntCore_digits {ds : Line} (hne : ds ≠ []) (hd : ∀ c ∈ ds, isDigitC c = true) :
    pyIntCore ds = some ((digitsVal ds : Nat) : Int) := by
  cases ds with
  | nil => exact absurd rfl hne
  | cons c cs =>
    have hc : isDigitC c = true := hd c (List.mem_cons_self c cs)
    have hall : (c :: cs).all isDigitC = true := List.all_eq_true.mpr hd
    simp only [pyIntCore, if_neg (isDigit_not_sign hc).1, if_neg (isDigit_not_sign hc).2]
    unfold digitsOpt
    rw [if_pos (by simp [hall])]
    rfl

theorem pyInt_natRepr (n : Nat) : pyInt (natRepr n) = some (n : Int) := by
  obtain ⟨hd, hne, hval⟩ := natRepr_spec n
  unfold pyInt
  rw [pyStrip_nospace (fun c hc => isDigit_not_space (hd c hc)), pyIntCore_digits hne hd, hval]

theorem pyInt_append_space {s junk : Line} (h : ∀ c ∈ junk, isPySpace c = true) :
    pyInt (s ++ junk) = pyInt s := by
  unfold pyInt
  rw [pyStrip_append_space h]

/-! ### Control flow of the parser -/

@[simp] theorem readBody_zero (v : Nat) (m : Assoc) (ls : List Line) :
    readBody 0 v m ls = .ok (m, ls) := rfl

@[simp] theorem readBody_succ_nil (n v : Nat) (m : Assoc) :
    readBody (n + 1) v m [] = .error .prematureEOF := rfl

theorem readBody_cons (n v : Nat) (m : Assoc) (l : Line) (ls : List Line) :
    readBody (n + 1) v m (l :: ls) =
      match pyInt l with
      | none => .error .invalidLabel
      | some lab => readBody n (v + 1) (addVertex m lab v) ls := rfl

theorem readBody_rem_le : ∀ (n v : Nat) (m : Assoc) (ls : List Line) (m' : Assoc)
    (rem : List Line), readBody n v m ls = .ok (m', rem) → rem.length ≤ ls.length := by
  intro n
  induction n with
  | zero =>
    intro v m ls m' rem h
    unfold readBody at h
    cases h
    exact le_refl _
  | succ n ih =>
    intro v m ls m' rem h
    cases ls with
    | nil => exact absurd h (by simp [readBody])
    | cons l ls =>
      unfold readBody at h
      cases hint : pyInt l with
      | none => rw [hint] at h; cases h
      | some lab =>
        rw [hint] at h
        exact le_trans (ih _ _ _ _ _ h) (Nat.le_succ _)

theorem parseLoopF_fuel_irrel : ∀ (f1 : Nat) {f2 : Nat} {lines : List Line} {st : Option Assoc},
    lines.length ≤ f1 → lines.length ≤ f2 →
    parseLoopF f1 lines st = parseLoopF f2 lines st := by
  intro f1
  induction f1 with
  | zero =>
    intro f2 lines st h1 _
    have : lines = [] := List.eq_nil_of_length_eq_zero (Nat.le_zero.mp h1)
    subst this
    cases f2 <;> cases st <;> rfl
  | succ f1 ih =>
    intro f2 lines st h1 h2
    cases lines with
    | nil => cases f2 <;> cases st <;> rfl
    | cons l rest =>
      cases f2 with
      | zero => simp at h2
      | succ f2 =>
        simp only [parseLoopF]
        by_cases hh : isHeaderLine l
        · rw [if_pos hh, if_pos hh]
          cases hz : headerN l with
          | error e => rfl
          | ok z =>
            simp only [ebind_ok]
            cases hr : readBody z.toNat 0 [] rest with
            | error e => rfl
            | ok pr =>
              obtain ⟨m, rem⟩ := pr
              simp only [ebind_ok]
              have hle := readBody_rem_le _ _ _ _ _ _ hr
              have hle1 : rem.length ≤ f1 := le_trans hle (Nat.le_of_succ_le_succ h1)
              have hle2 : rem.length ≤ f2 := le_trans hle (Nat.le_of_succ_le_succ h2)
              exact ih hle1 hle2
        · rw [if_neg hh, if_neg hh]

/-- Unfolding the parser one step past an accepted header line. -/
theorem parse_cons_header_eq (l : Line) (rest : List Line)
    (hh : isHeaderLine (rstripLF l) = true) :
    parse_pajek_communities (l :: rest) =
      (ebind (headerN (rstripLF l)) (fun z =>
        ebind (readBody z.toNat 0 [] (rest.map rstripLF)) (fun p =>
          parseLoopF rest.length p.2 (some p.1)))).map
        (fun m => m.map Prod.snd) := by
  unfold parse_pajek_communities
  simp only [List.map_cons, List.length_cons, parseLoopF, hh, if_true]

/-- Reading exactly as many parseable lines as requested succeeds and leaves
any trailing lines untouched. -/
theorem readBody_exact : ∀ (body : List Line), (∀ l ∈ body, (pyInt l).isSome) →
    ∀ (v : Nat) (m : Assoc) (rest : List Line),
      readBody body.length v m (body ++ rest)
        = (readBody body.length v m body).map (fun p => (p.1, rest)) := by
  intro body
  induction body with
  | nil => intro _ v m rest; rfl
  | cons l body ih =>
    intro h v m rest
    obtain ⟨lab, hlab⟩ := Option.isSome_iff_exists.mp (h l (List.mem_cons_self l body))
    simp only [List.cons_append, List.length_cons, readBody_cons, hlab]
    exact ih (fun x hx => h x (List.mem_cons_of_mem l hx)) _ _ rest

theorem readBody_premature : ∀ (body : List Line), (∀ l ∈ body, (pyInt l).isSome) →
    ∀ (n v : Nat) (m : Assoc), body.length < n →
      readBody n v m body = .error .prematureEOF := by
  intro body
  induction body with
  | nil =>
    intro _ n v m hlt
    cases n with
    | zero => simp at hlt
    | succ n => rfl
  | cons l body ih =>
    intro h n v m hlt
    cases n with
    | zero => simp at hlt
    | succ n =>
      obtain ⟨lab, hlab⟩ := Option.isSome_iff_exists.mp (h l (List.mem_cons_self l body))
      simp only [readBody_cons, hlab]
      exact ih (fun x hx => h x (List.mem_cons_of_mem l hx)) n _ _ (Nat.lt_of_succ_lt_succ hlt)

/-! ### Congruence of the parser under per-line transformations that preserve
the three observations it makes of a line -/

theorem readBody_congr {g1 g2 : Line → Line} (hI : ∀ l, pyInt (g1 l) = pyInt (g2 l)) :
    ∀ (ls : List Line) (n v : Nat) (m : Assoc),
      (∃ e, readBody n v m (ls.map g1) = .error e ∧ readBody n v m (ls.map g2) = .error e)
      ∨ (∃ m' k, readBody n v m (ls.map g1) = .ok (m', (ls.drop k).map g1)
          ∧ readBody n v m (ls.map g2) = .ok (m', (ls.drop k).map g2)) := by
  intro ls
  induction ls with
  | nil =>
    intro n v m
    cases n with
    | zero => exact Or.inr ⟨m, 0, rfl, rfl⟩
    | succ n => exact Or.inl ⟨.prematureEOF, rfl, rfl⟩
  | cons l ls ih =>
    intro n v m
    cases n with
    | zero => exact Or.inr ⟨m, 0, rfl, rfl⟩
    | succ n =>
      simp only [List.map_cons]
      cases hint : pyInt (g1 l) with
      | none =>
        have h2 : pyInt (g2 l) = none := (hI l) ▸ hint
        exact Or.inl ⟨.invalidLabel, by simp [readBody_cons, hint],
          by simp [readBody_cons, h2]⟩
      | some lab =>
        have h2 : pyInt (g2 l) = some lab := (hI l) ▸ hint
        simp only [readBody_cons, hint, h2]
        rcases ih n (v + 1) (addVertex m lab v) with ⟨e, he1, he2⟩ | ⟨m', k, hk1, hk2⟩
        · exact Or.inl ⟨e, he1, he2⟩
        · exact Or.inr ⟨m', k + 1, by simpa using hk1, by simpa using hk2⟩

theorem headerN_congr {l1 l2 : Line} (hS : pySplit l1 = pySplit l2) :
    headerN l1 = headerN l2 := by
  unfold headerN
  rw [hS]

theorem parseLoopF_congr {g1 g2 : Line → Line}
    (hH : ∀ l, isHeaderLine (g1 l) = isHeaderLine (g2 l))
    (hS : ∀ l, pySplit (g1 l) = pySplit (g2 l))
    (hI : ∀ l, pyInt (g1 l) = pyInt (g2 l)) :
    ∀ (fuel : Nat) (lines : List Line) (st : Option Assoc), lines.length ≤ fuel →
      parseLoopF fuel (lines.map g1) st = parseLoopF fuel (lines.map g2) st := by
  intro fuel
  induction fuel with
  | zero =>
    intro lines st h
    have : lines = [] := List.eq_nil_of_length_eq_zero (Nat.le_zero.mp h)
    subst this
    rfl
  | succ fuel ih =>
    intro lines st h
    cases lines with
    | nil => rfl
    | cons l rest =>
      simp only [List.map_cons, parseLoopF]
      rw [hH l]
      by_cases hh : isHeaderLine (g2 l)
      · rw [if_pos hh, if_pos hh, headerN_congr (hS l)]
        cases hz : headerN (g2 l) with
        | error e => rfl
        | ok z =>
          simp only [ebind_ok]
          rcases readBody_congr hI rest z.toNat 0 [] with ⟨e, he1, he2⟩ | ⟨m', k, hk1, hk2⟩
          · rw [he1, he2]
          · rw [hk1, hk2]
            simp only [ebind_ok]
            exact ih (rest.drop k) (some m')
              (le_trans (rest.length_drop k ▸ Nat.sub_le _ _) (Nat.le_of_succ_le_succ h))
      · rw [if_neg hh, if_neg hh]

@[simp] theorem parseLoopF_nil_some (fuel : Nat) (m : Assoc) :
    parseLoopF fuel [] (some m) = .ok m := by cases fuel <;> rfl

@[simp] theorem parseLoopF_nil_none (fuel : Nat) :
    parseLoopF fuel [] none = .error .unboundLocal := by cases fuel <;> rfl

/-- Reading exactly as many parseable lines as requested succeeds, consumes
them all, and leaves any trailing lines untouched. -/
theorem readBody_total : ∀ (B : List Line), (∀ l ∈ B, (pyInt l).isSome) →
    ∀ (v : Nat) (m : Assoc) (rest : List Line),
      ∃ m', readBody B.length v m (B ++ rest) = .ok (m', rest)
        ∧ readBody B.length v m B = .ok (m', []) := by
  intro B
  induction B with
  | nil => intro _ v m rest; exact ⟨m, rfl, rfl⟩
  | cons l B ih =>
    intro h v m rest
    obtain ⟨lab, hlab⟩ := Option.isSome_iff_exists.mp (h l (List.mem_cons_self l B))
    obtain ⟨m', h1, h2⟩ := ih (fun x hx => h x (List.mem_cons_of_mem l hx))
      (v + 1) (addVertex m lab v) rest
    refine ⟨m', ?_, ?_⟩
    · simp only [List.cons_append, List.length_cons, readBody_cons, hlab]
      exact h1
    · simp only [List.length_cons, readBody_cons, hlab]
      exact h2

/-! ### Carriage-return invariance observations -/

theorem rstripLF_concat_cr (l : Line) : rstripLF (l ++ ['\r']) = l ++ ['\r'] :=
  rstripLF_concat_ne (by decide)

theorem obs_header_cr (l : Line) :
    isHeaderLine (rstripLF (l ++ ['\r'])) = isHeaderLine (rstripLF l) := by
  obtain ⟨junk, hjunk, hdecomp⟩ := rstripLF_decomp l
  rw [rstripLF_concat_cr]
  conv_lhs => rw [hdecomp]
  rw [List.append_assoc]
  refine isHeaderLine_append_junk ?_
  intro c hc
  rcases List.mem_append.mp hc with hc | hc
  · exact Or.inl (hjunk c hc)
  · rcases List.mem_singleton.mp hc with rfl
    exact Or.inr rfl

theorem obs_split_cr (l : Line) :
    pySplit (rstripLF (l ++ ['\r'])) = pySplit (rstripLF l) := by
  obtain ⟨junk, hjunk, hdecomp⟩ := rstripLF_decomp l
  rw [rstripLF_concat_cr]
  conv_lhs => rw [hdecomp]
  rw [List.append_assoc]
  refine pySplit_append_space ?_
  intro c hc
  rcases List.mem_append.mp hc with hc | hc
  · rw [hjunk c hc]; decide
  · rcases List.mem_singleton.mp hc with rfl; decide

theorem obs_int_cr (l : Line) :
    pyInt (rstripLF (l ++ ['\r'])) = pyInt (rstripLF l) := by
  obtain ⟨junk, hjunk, hdecomp⟩ := rstripLF_decomp l
  rw [rstripLF_concat_cr]
  conv_lhs => rw [hdecomp]
  rw [List.append_assoc]
  refine pyInt_append_space ?_
  intro c hc
  rcases List.mem_append.mp hc with hc | hc
  · rw [hjunk c hc]; decide
  · rcases List.mem_singleton.mp hc with rfl; decide

/-! ### Claim theorems: parser behavior -/

/-- C3: the spec says exhausting the input before a header line yields an
empty Partition and no error; the code instead reaches
`return [v for k, v in dict(communities).items()]` with `communities`
never assigned and raises `UnboundLocalError`.  This theorem evaluates the
embedded code at the failing input (the empty input). -/
theorem c3_empty_input_errors :
    parse_pajek_communities [] = .error .unboundLocal := rfl

/-- C7 (amended): the parser never skips leading lines.  The header test is
`l.lower().startswith("*vertices")`, a prefix test on the whole line; if the
first line fails it, the loop stops at once and, no section having been
parsed, the function fails with an unbound-variable error. -/
theorem c7_header_test (l : Line) (rest : List Line) :
    isHeaderLine l = lStartsWith (pyLower l) ("*vertices".toList)
    ∧ (isHeaderLine (rstripLF l) = false →
        parse_pajek_communities (l :: rest) = .error .unboundLocal) := by
  refine ⟨rfl, fun hh => ?_⟩
  unfold parse_pajek_communities
  simp only [List.map_cons, List.length_cons, parseLoopF, hh, Bool.false_eq_true, if_false]
  rfl

/-- C7 counterexample: the claim says parse skips leading non-header lines,
so this input would parse to `[[0]]`; the code stops at the first line and
fails with the unbound-variable error. -/
theorem c7_counterexample :
    parse_pajek_communities (["x", "*Vertices 1", "1"].map String.toList)
      = .error .unboundLocal := rfl

/-- Witness for the amended C7 at a concrete input. -/
theorem c7_witness :
    parse_pajek_communities (["abc"].map String.toList) = .error .unboundLocal :=
  (c7_header_test ("abc".toList) []).2 (by decide)

/-- C5 (amended): if the first line passes the header test but splitting it
on whitespace does not yield exactly two tokens with the second parseable as
a (possibly signed) integer, parsing fails with `MalformedHeader`.  (The
original claim demanded a *non-negative* integer; the code accepts a
negative count, see the counterexample.) -/
theorem c5_malformed_header (l : Line) (rest : List Line)
    (hh : isHeaderLine (rstripLF l) = true)
    (hbad : (∀ t1 t2 : Line, pySplit (rstripLF l) ≠ [t1, t2]) ∨
      (∃ t1 t2 : Line, pySplit (rstripLF l) = [t1, t2] ∧ pyInt t2 = none)) :
    parse_pajek_communities (l :: rest) = .error .malformedHeader := by
  have hz : headerN (rstripLF l) = .error .malformedHeader := by
    unfold headerN
    rcases hbad with hbad | ⟨t1, t2, heq, hnone⟩
    · cases hsp : pySplit (rstripLF l) with
      | nil => rfl
      | cons a bs =>
        cases bs with
        | nil => rfl
        | cons b cs =>
          cases cs with
          | nil => exact absurd hsp (hbad a b)
          | cons c ds => rfl
    · simp only [heq, hnone]
  rw [parse_cons_header_eq _ _ hh, hz]
  rfl

/-- C5 counterexample: the header `*Vertices -3` has a negative count token,
which the claim says must be a `MalformedHeader` error; the code parses it
with Python `int`, `range(-3)` is empty, and the input parses successfully
to an empty Partition. -/
theorem c5_counterexample :
    parse_pajek_communities (["*Vertices -3"].map String.toList) = .ok []
    ∧ (Except.ok ([] : List (List Nat)) : Except ParseErr (List (List Nat)))
        ≠ .error .malformedHeader :=
  ⟨rfl, fun h => Except.noConfusion h⟩

/-- Witness for the amended C5 at a concrete input (`*Vertices` alone). -/
theorem c5_witness :
    parse_pajek_communities (["*Vertices"].map String.toList) = .error .malformedHeader :=
  c5_malformed_header ("*Vertices".toList) [] (by decide)
    (Or.inl (by
      intro t1 t2 h
      have heval : pySplit (rstripLF ("*Vertices".toList)) = ["*Vertices".toList] := rfl
      rw [heval] at h
      simp at h))

/-- C8: a header declaring `N` followed by fewer than `N` parseable
assignment lines fails with `PrematureEOF` (the `StopIteration` escaping
`next(lines)`), returning no partial Partition. -/
theorem c8_premature_eof (hline : Line) (body : List Line) (z : Int)
    (hh : isHeaderLine (rstripLF hline) = true)
    (hz : headerN (rstripLF hline) = .ok z)
    (hshort : body.length < z.toNat)
    (hlabs : ∀ l ∈ body, (pyInt (rstripLF l)).isSome) :
    parse_pajek_communities (hline :: body) = .error .prematureEOF := by
  rw [parse_cons_header_eq _ _ hh, hz]
  simp only [ebind_ok]
  rw [readBody_premature (body.map rstripLF)
    (fun x hx => by
      obtain ⟨l0, hl0, rfl⟩ := List.mem_map.mp hx
      exact hlabs l0 hl0)
    z.toNat 0 [] (by simpa using hshort)]
  rfl

/-- Witness for C8: `*Vertices 5` with only three body lines. -/
theorem c8_witness :
    parse_pajek_communities
        ("*Vertices 5".toList :: ["1", "2", "1"].map String.toList)
      = .error .prematureEOF :=
  c8_premature_eof ("*Vertices 5".toList) (["1", "2", "1"].map String.toList) 5
    (by decide) rfl (by decide) (by decide)

/-- C4 (amended): lines beyond the `N`-th assignment are ignored *provided*
the first trailing line does not pass the case-insensitive `*vertices`
prefix test; a trailing line that passes it starts a new section whose
result replaces the previous one (see the counterexample). -/
theorem c4_trailing_ignored (hline : Line) (body rest : List Line) (z : Int)
    (hh : isHeaderLine (rstripLF hline) = true)
    (hz : headerN (rstripLF hline) = .ok z)
    (hlen : body.length = z.toNat)
    (hlabs : ∀ l ∈ body, (pyInt (rstripLF l)).isSome)
    (hrest : ∀ l0 rest0, rest = l0 :: rest0 → isHeaderLine (rstripLF l0) = false) :
    parse_pajek_communities (hline :: (body ++ rest))
      = parse_pajek_communities (hline :: body) := by
  rw [parse_cons_header_eq _ _ hh, parse_cons_header_eq _ _ hh, hz]
  simp only [ebind_ok, List.map_append]
  have hB : ∀ l ∈ body.map rstripLF, (pyInt l).isSome := by
    intro x hx
    obtain ⟨l0, hl0, rfl⟩ := List.mem_map.mp hx
    exact hlabs l0 hl0
  obtain ⟨m', h1, h2⟩ := readBody_total (body.map rstripLF) hB 0 [] (rest.map rstripLF)
  have hzn : z.toNat = (body.map rstripLF).length := by simp [← hlen]
  rw [hzn, h1, h2]
  simp only [ebind_ok, parseLoopF_nil_some]
  cases rest with
  | nil => simp
  | cons l0 rest0 =>
    have hfuel : ((l0 :: rest0).map rstripLF).length ≤ (body ++ l0 :: rest0).length := by
      simp [Nat.le_add_left]
    rw [parseLoopF_fuel_irrel _ hfuel (le_refl _)]
    simp only [List.map_cons, parseLoopF, hrest l0 rest0 rfl, Bool.false_eq_true, if_false]

/-- C4 counterexample: with trailing lines that form a second header
section, the code re-parses and the second section's partition replaces the
first, so the trailing lines are not ignored. -/
theorem c4_counterexample :
    parse_pajek_communities
        (["*Vertices 2", "1", "1", "*Vertices 2", "1", "2"].map String.toList)
      = .ok [[0], [1]]
    ∧ parse_pajek_communities (["*Vertices 2", "1", "1"].map String.toList) = .ok [[0, 1]]
    ∧ ([[0], [1]] : List (List Nat)) ≠ [[0, 1]] :=
  ⟨rfl, rfl, by decide⟩

/-- Witness for the amended C4: one non-header trailing line is ignored. -/
theorem c4_witness :
    parse_pajek_communities
        ("*Vertices 2".toList :: (["1", "1"].map String.toList ++ ["foo"].map String.toList))
      = parse_pajek_communities ("*Vertices 2".toList :: ["1", "1"].map String.toList) :=
  c4_trailing_ignored ("*Vertices 2".toList) (["1", "1"].map String.toList)
    (["foo"].map String.toList) 2 (by decide) rfl (by decide) (by decide)
    (by
      intro l0 rest0 h
      obtain ⟨h1, h2⟩ := List.cons.inj h.symm
      subst h1
      decide)

/-- C10: appending a carriage return to every line does not change the
result of parsing (CRLF-terminated text parses exactly like LF-terminated
text, so text written by `write_pajek_communities`, which terminates lines
with CRLF, is read back identically). -/
theorem c10_crlf_invariance (lines : List Line) :
    parse_pajek_communities (lines.map (fun l => l ++ ['\r']))
      = parse_pajek_communities lines := by
  unfold parse_pajek_communities
  rw [List.length_map, List.map_map]
  have hcongr := parseLoopF_congr obs_header_cr obs_split_cr obs_int_cr
    lines.length lines none (le_refl _)
  have hfun : (rstripLF ∘ fun l => l ++ ['\r']) = fun l => rstripLF (l ++ ['\r']) := rfl
  rw [hfun, hcongr]

/-! ### The generator: minimum extraction reconstructs ascending order -/

/-- Combination of two optional minima, as produced by `listMin` on an append. -/
def ominNat : Option Nat → Option Nat → Option Nat
  | none, b => b
  | some a, none => some a
  | some a, some b => some (Nat.min a b)

theorem listMin_cons (x : Nat) (xs : List Nat) :
    listMin (x :: xs) =
      match listMin xs with
      | none => some x
      | some m => some (Nat.min x m) := rfl

theorem listMin_eq_none_iff (l : List Nat) : listMin l = none ↔ l = [] := by
  cases l with
  | nil => simp [listMin]
  | cons x xs =>
    rw [listMin_cons]
    cases listMin xs <;> simp

theorem listMin_spec : ∀ (l : List Nat) (m : Nat), listMin l = some m →
    m ∈ l ∧ ∀ x ∈ l, m ≤ x := by
  intro l
  induction l with
  | nil => intro m h; cases h
  | cons x xs ih =>
    intro m h
    rw [listMin_cons] at h
    cases hxs : listMin xs with
    | none =>
      rw [hxs] at h
      obtain rfl : xs = [] := (listMin_eq_none_iff xs).mp hxs
      have hx : m = x := by injection h with h2; exact h2.symm
      subst hx
      exact ⟨List.mem_cons_self m [], by simp⟩
    | some k =>
      rw [hxs] at h
      have hmin : Nat.min x k = m := by injection h
      obtain ⟨hk, hlb⟩ := ih k hxs
      subst hmin
      constructor
      · rcases Nat.le_total x k with hxk | hkx
        · have hm : Nat.min x k = x := Nat.min_eq_left hxk
          rw [hm]; exact List.mem_cons_self x xs
        · have hm : Nat.min x k = k := Nat.min_eq_right hkx
          rw [hm]; exact List.mem_cons_of_mem x hk
      · intro y hy
        rcases List.mem_cons.mp hy with rfl | hy
        · exact Nat.min_le_left _ _
        · exact le_trans (Nat.min_le_right _ _) (hlb y hy)

theorem listMin_of_mem_lb : ∀ {l : List Nat} {v : Nat}, v ∈ l → (∀ x ∈ l, v ≤ x) →
    listMin l = some v := by
  intro l
  induction l with
  | nil => intro v hmem; cases hmem
  | cons x xs ih =>
    intro v hmem hlb
    rw [listMin_cons]
    cases hxs : listMin xs with
    | none =>
      obtain rfl : xs = [] := (listMin_eq_none_iff xs).mp hxs
      rcases List.mem_cons.mp hmem with rfl | hmem
      · rfl
      · cases hmem
    | some k =>
      obtain ⟨hk, hklb⟩ := listMin_spec xs k hxs
      have hvk : v ≤ k := hlb k (List.mem_cons_of_mem x hk)
      have hvx : v ≤ x := hlb x (List.mem_cons_self x xs)
      show some (Nat.min x k) = some v
      rcases List.mem_cons.mp hmem with rfl | hmem
      · have hm : Nat.min v k = v := Nat.min_eq_left hvk
        rw [hm]
      · have hkv : k ≤ v := hklb v hmem
        obtain rfl : k = v := Nat.le_antisymm hkv hvk
        have hm : Nat.min x k = k := Nat.min_eq_right hvx
        rw [hm]

theorem listMin_append (l1 l2 : List Nat) :
    listMin (l1 ++ l2) = ominNat (listMin l1) (listMin l2) := by
  induction l1 with
  | nil => rfl
  | cons x xs ih =>
    rw [List.cons_append, listMin_cons, listMin_cons, ih]
    cases listMin xs <;> cases listMin l2 <;> simp [ominNat, Nat.min_assoc]

theorem listMin_filterMap (cl : List (List Nat)) :
    listMin (cl.filterMap listMin) = listMin cl.flatten := by
  induction cl with
  | nil => rfl
  | cons l cl ih =>
    simp only [List.filterMap_cons, List.flatten_cons, listMin_append]
    cases hl : listMin l with
    | none =>
      obtain rfl : l = [] := (listMin_eq_none_iff l).mp hl
      simpa [ominNat] using ih
    | some m =>
      rw [listMin_cons, ih]
      cases listMin cl.flatten <;> rfl

theorem findCommunity_map_filter {p : Nat → Bool} {v : Nat} (hv : p v = true) :
    ∀ P : List (List Nat), findCommunity v (P.map (List.filter p)) = findCommunity v P := by
  intro P
  induction P with
  | nil => rfl
  | cons l P ih =>
    simp only [List.map_cons, findCommunity, ih]
    by_cases hm : v ∈ l
    · rw [if_pos (List.mem_filter.mpr ⟨hm, hv⟩), if_pos hm]
    · rw [if_neg (fun hc => hm (List.mem_filter.mp hc).1), if_neg hm]

theorem findCommunity_isSome_of_mem_flatten {v : Nat} :
    ∀ {P : List (List Nat)}, v ∈ P.flatten → ∃ j, findCommunity v P = some j := by
  intro P
  induction P with
  | nil => intro h; cases h
  | cons l P ih =>
    intro h
    simp only [findCommunity]
    by_cases hm : v ∈ l
    · exact ⟨0, by rw [if_pos hm]⟩
    · have hmem : v ∈ P.flatten := by
        rw [List.flatten_cons, List.mem_append] at h
        rcases h with hc | hc
        · exact absurd hc hm
        · exact hc
      obtain ⟨j, hj⟩ := ih hmem
      exact ⟨j + 1, by rw [if_neg hm, hj]; rfl⟩

theorem findCommunity_mem : ∀ {P : List (List Nat)} {v j : Nat},
    findCommunity v P = some j → ∃ l, P[j]? = some l ∧ v ∈ l := by
  intro P
  induction P with
  | nil => intro v j h; cases h
  | cons l P ih =>
    intro v j h
    simp only [findCommunity] at h
    by_cases hm : v ∈ l
    · rw [if_pos hm] at h
      injection h with h
      subst h
      exact ⟨l, by simp, hm⟩
    · rw [if_neg hm] at h
      cases hfc : findCommunity v P with
      | none => rw [hfc] at h; cases h
      | some j0 =>
        rw [hfc] at h
        injection h with h
        subst h
        obtain ⟨l0, hl0, hvl0⟩ := ih hfc
        exact ⟨l0, by simpa using hl0, hvl0⟩

theorem mem_unique_of_disjoint {P : List (List Nat)} (hdisj : P.Pairwise List.Disjoint)
    {v i j : Nat} {li lj : List Nat} (hi : P[i]? = some li) (hj : P[j]? = some lj)
    (hvi : v ∈ li) (hvj : v ∈ lj) : i = j := by
  by_contra hne
  have hilen : i < P.length := by
    by_contra hge
    rw [List.getElem?_eq_none (Nat.le_of_not_lt hge)] at hi
    cases hi
  have hjlen : j < P.length := by
    by_contra hge
    rw [List.getElem?_eq_none (Nat.le_of_not_lt hge)] at hj
    cases hj
  have hi' : P[i] = li := by
    have := List.getElem?_eq_getElem hilen
    rw [this] at hi
    injection hi
  have hj' : P[j] = lj := by
    have := List.getElem?_eq_getElem hjlen
    rw [this] at hj
    injection hj
  rcases Nat.lt_or_ge i j with hij | hij
  · have := (List.pairwise_iff_getElem.mp hdisj) i j hilen hjlen hij
    rw [hi', hj'] at this
    exact this hvi hvj
  · have hji : j < i := Nat.lt_of_le_of_ne hij (fun h => hne h.symm)
    have := (List.pairwise_iff_getElem.mp hdisj) j i hjlen hilen hji
    rw [hi', hj'] at this
    exact this hvj hvi

theorem filter_ge_succ_of_not_mem : ∀ {l : List Nat} {v : Nat}, v ∉ l →
    l.filter (fun x => decide (v ≤ x)) = l.filter (fun x => decide (v + 1 ≤ x)) := by
  intro l
  induction l with
  | nil => intro v _; rfl
  | cons x xs ih =>
    intro v h
    have hx : x ≠ v := fun hc => h (hc ▸ List.mem_cons_self x xs)
    have hxs : v ∉ xs := fun hc => h (List.mem_cons_of_mem x hc)
    simp only [List.filter_cons]
    have : (decide (v ≤ x)) = (decide (v + 1 ≤ x)) := by
      rcases Nat.lt_or_ge x v with hlt | hge
      · simp [Nat.not_le_of_lt hlt]; omega
      · have : v + 1 ≤ x := Nat.lt_of_le_of_ne hge (fun hc => hx hc.symm)
        simp [hge, this]
    rw [this, ih hxs]

theorem removeFirst_filter_nodup : ∀ {l : List Nat} {v : Nat}, l.Nodup →
    removeFirst (l.filter (fun x => decide (v ≤ x))) v
      = l.filter (fun x => decide (v + 1 ≤ x)) := by
  intro l
  induction l with
  | nil => intro v _; rfl
  | cons x xs ih =>
    intro v hnd
    obtain ⟨hx, hxs⟩ := List.nodup_cons.mp hnd
    simp only [List.filter_cons]
    by_cases hvx : v ≤ x
    · simp only [decide_eq_true hvx]
      by_cases hxv : x = v
      · subst hxv
        simp only [removeFirst, if_pos rfl]
        have : ¬ (x + 1 ≤ x) := by omega
        simp only [decide_eq_false this, Bool.false_eq_true, if_false]
        exact filter_ge_succ_of_not_mem hx
      · have hv1 : v + 1 ≤ x := Nat.lt_of_le_of_ne hvx (fun hc => hxv hc.symm)
        simp only [decide_eq_true hv1, if_true]
        simp only [removeFirst, if_neg hxv]
        rw [ih hxs]
    · have h1 : ¬ (v + 1 ≤ x) := by omega
      simp only [decide_eq_false hvx, decide_eq_false h1, Bool.false_eq_true, if_false]
      exact ih hxs

theorem step_state : ∀ (P : List (List Nat)) (v j : Nat),
    findCommunity v P = some j → (∀ l ∈ P, l.Nodup) → P.Pairwise List.Disjoint →
    modifyIdx (fun l => removeFirst l v) j (P.map (List.filter (fun x => decide (v ≤ x))))
      = P.map (List.filter (fun x => decide (v + 1 ≤ x))) := by
  intro P
  induction P with
  | nil => intro v j h; cases h
  | cons l P ih =>
    intro v j hfind hnd hdisj
    simp only [findCommunity] at hfind
    by_cases hv : v ∈ l
    · rw [if_pos hv] at hfind
      injection hfind with hfind
      subst hfind
      simp only [List.map_cons, modifyIdx]
      congr 1
      · exact removeFirst_filter_nodup (hnd l (List.mem_cons_self l P))
      · apply List.map_congr_left
        intro l0 hl0
        exact filter_ge_succ_of_not_mem
          (fun hv0 => (List.pairwise_cons.mp hdisj).1 l0 hl0 hv hv0)
    · rw [if_neg hv] at hfind
      cases hfc : findCommunity v P with
      | none => rw [hfc] at hfind; cases hfind
      | some j0 =>
        rw [hfc] at hfind
        injection hfind with hfind
        subst hfind
        simp only [List.map_cons, modifyIdx]
        congr 1
        · exact filter_ge_succ_of_not_mem hv
        · exact ih v j0 hfc (fun x hx => hnd x (List.mem_cons_of_mem l hx))
            (List.pairwise_cons.mp hdisj).2

theorem genLoop_inv (P : List (List Nat)) (h1 : I1 P) :
    ∀ n v, v + n = nVerts P →
      genLoop n (P.map (List.filter (fun x => decide (v ≤ x))))
        = some ((List.range' v n).map (fun x => natRepr (ownerIdx P x + 1))) := by
  obtain ⟨hnd, hub, hlb⟩ := h1
  intro n
  induction n with
  | zero => intro v _; rfl
  | succ n ih =>
    intro v hv
    have hvN : v < nVerts P := by omega
    have hvmem : v ∈ P.flatten := hlb v hvN
    have hclf : (P.map (List.filter (fun x => decide (v ≤ x)))).flatten
        = P.flatten.filter (fun x => decide (v ≤ x)) := (List.filter_flatten _ _).symm
    have hmin : listMin ((P.map (List.filter (fun x => decide (v ≤ x)))).filterMap listMin)
        = some v := by
      rw [listMin_filterMap, hclf]
      apply listMin_of_mem_lb
      · exact List.mem_filter.mpr ⟨hvmem, by simp⟩
      · intro x hx
        simpa using (List.mem_filter.mp hx).2
    obtain ⟨j, hj⟩ := findCommunity_isSome_of_mem_flatten hvmem
    have hfindcl : findCommunity v (P.map (List.filter (fun x => decide (v ≤ x)))) = some j := by
      rw [findCommunity_map_filter (by simp)]
      exact hj
    have hstep : modifyIdx (fun l => removeFirst l v) j
        (P.map (List.filter (fun x => decide (v ≤ x))))
        = P.map (List.filter (fun x => decide (v + 1 ≤ x))) :=
      step_state P v j hj ((List.nodup_flatten.mp hnd).1) ((List.nodup_flatten.mp hnd).2)
    have howner : ownerIdx P v = j := by rw [ownerIdx, hj]; rfl
    simp only [genLoop, hmin, Option.some_bind, hfindcl, hstep, ih (v + 1) (by omega)]
    rw [List.range'_succ]
    simp [howner]

theorem generate_spec (P : List (List Nat)) (h1 : I1 P) :
    generate_pajek_communities P
      = some (headerLine (nVerts P)
          :: (List.range (nVerts P)).map (fun x => natRepr (ownerIdx P x + 1))) := by
  unfold generate_pajek_communities
  have h0 : P.map (List.filter (fun x => decide (0 ≤ x))) = P := by
    have : ∀ l ∈ P, l.filter (fun x => decide (0 ≤ x)) = l := by
      intro l _
      exact List.filter_eq_self.mpr (fun a _ => by simp)
    calc P.map (List.filter (fun x => decide (0 ≤ x))) = P.map id := List.map_congr_left this
    _ = P := List.map_id P
  have hloop := genLoop_inv P h1 (nVerts P) 0 (by omega)
  rw [h0] at hloop
  rw [hloop, ← List.range_eq_range']
  rfl

/-! ### Claim theorems: generator behavior -/

/-- C2: for a Partition satisfying I1, generate yields the header line
`*Vertices N` followed by exactly the `N` body lines where body line `i+1`
is the decimal numeral of the 1-based position, in `P`'s community sequence,
of the Community containing vertex index `i` (`ownerIdx` is that position:
the second conjunct proves it is the index of the unique community whose
list contains `i`, whatever the storage order inside each list). -/
theorem c2_generate_layout (P : List (List Nat)) (h1 : I1 P) :
    generate_pajek_communities P
      = some (headerLine (nVerts P)
          :: (List.range (nVerts P)).map (fun i => natRepr (ownerIdx P i + 1)))
    ∧ ∀ i, i < nVerts P →
        ∃ l, P[ownerIdx P i]? = some l ∧ i ∈ l
          ∧ ∀ j lj, P[j]? = some lj → i ∈ lj → j = ownerIdx P i := by
  refine ⟨generate_spec P h1, ?_⟩
  obtain ⟨hnd, hub, hlb⟩ := h1
  intro i hi
  have hm : i ∈ P.flatten := hlb i hi
  obtain ⟨j, hj⟩ := findCommunity_isSome_of_mem_flatten hm
  have howner : ownerIdx P i = j := by rw [ownerIdx, hj]; rfl
  obtain ⟨l, hl, hil⟩ := findCommunity_mem hj
  refine ⟨l, howner ▸ hl, hil, ?_⟩
  intro j' lj hj' hmem
  rw [howner]
  exact mem_unique_of_disjoint (List.nodup_flatten.mp hnd).2 hj' hl hmem hil

/-- Witness for C2 at the spec's round-trip example partition. -/
theorem c2_witness :
    generate_pajek_communities [[0, 2], [1, 3]]
      = some (headerLine (nVerts [[0, 2], [1, 3]])
          :: (List.range (nVerts [[0, 2], [1, 3]])).map
            (fun i => natRepr (ownerIdx [[0, 2], [1, 3]] i + 1))) :=
  (c2_generate_layout [[0, 2], [1, 3]] (by decide)).1

/-- C9: for a Partition satisfying I1, every one of the `N` extraction steps
inside generate succeeds (the minimum over the non-empty working lists and
the search for the owning community never fail, which is what `some` means
for the embedded `genLoop`), and generate terminates with exactly `N + 1`
lines. -/
theorem c9_generate_total (P : List (List Nat)) (h1 : I1 P) :
    ∃ ls, generate_pajek_communities P = some ls ∧ ls.length = nVerts P + 1 :=
  ⟨_, generate_spec P h1, by simp⟩

/-- Witness for C9 at the spec's out-of-order storage example. -/
theorem c9_witness :
    ∃ ls, generate_pajek_communities [[3, 0], [1, 2]] = some ls
      ∧ ls.length = nVerts [[3, 0], [1, 2]] + 1 :=
  c9_generate_total [[3, 0], [1, 2]] (by decide)

/-! ### Characterization of the insertion-ordered grouping -/

theorem buildAssoc_append : ∀ (l1 l2 : List Int) (v : Nat) (m : Assoc),
    buildAssoc (l1 ++ l2) v m = buildAssoc l2 (v + l1.length) (buildAssoc l1 v m) := by
  intro l1
  induction l1 with
  | nil => intro l2 v m; simp [buildAssoc]
  | cons L l1 ih =>
    intro l2 v m
    simp only [List.cons_append, buildAssoc, List.length_cons, List.append_eq]
    rw [ih]
    have harith : v + 1 + l1.length = v + (l1.length + 1) := by omega
    rw [harith]

theorem mem_faAux : ∀ (labs seen : List Int) (x : Int),
    x ∈ faAux seen labs ↔ x ∈ labs ∧ x ∉ seen := by
  intro labs
  induction labs with
  | nil => intro seen x; simp [faAux]
  | cons L labs ih =>
    intro seen x
    simp only [faAux]
    by_cases hL : L ∈ seen
    · rw [if_pos hL, ih]
      constructor
      · rintro ⟨hx, hns⟩
        exact ⟨List.mem_cons_of_mem L hx, hns⟩
      · rintro ⟨hx, hns⟩
        rcases List.mem_cons.mp hx with rfl | hx
        · exact absurd hL hns
        · exact ⟨hx, hns⟩
    · rw [if_neg hL]
      simp only [List.mem_cons, ih, List.mem_cons]
      constructor
      · rintro (rfl | ⟨hx, hns⟩)
        · exact ⟨Or.inl rfl, hL⟩
        · exact ⟨Or.inr hx, fun hc => hns (Or.inr hc)⟩
      · rintro ⟨rfl | hx, hns⟩
        · exact Or.inl rfl
        · by_cases hxL : x = L
          · exact Or.inl hxL
          · exact Or.inr ⟨hx, fun hc => Or.elim hc (fun h => hxL h) (fun h => hns h)⟩

theorem faAux_nodup : ∀ (labs seen : List Int), (faAux seen labs).Nodup := by
  intro labs
  induction labs with
  | nil => intro seen; exact List.nodup_nil
  | cons L labs ih =>
    intro seen
    simp only [faAux]
    by_cases hL : L ∈ seen
    · rw [if_pos hL]; exact ih seen
    · rw [if_neg hL]
      refine List.nodup_cons.mpr ⟨?_, ih (L :: seen)⟩
      intro hc
      exact ((mem_faAux labs (L :: seen) L).mp hc).2 (List.mem_cons_self L seen)

theorem faAux_snoc : ∀ (labs seen : List Int) (L : Int),
    faAux seen (labs ++ [L])
      = faAux seen labs ++ (if L ∈ seen ∨ L ∈ labs then [] else [L]) := by
  intro labs
  induction labs with
  | nil =>
    intro seen L
    simp only [List.nil_append, faAux]
    by_cases hL : L ∈ seen
    · simp [hL]
    · simp [hL, faAux]
  | cons x labs ih =>
    intro seen L
    simp only [List.cons_append, faAux, List.append_eq]
    by_cases hx : x ∈ seen
    · rw [if_pos hx, if_pos hx, ih]
      have : (L ∈ seen ∨ L ∈ x :: labs) ↔ (L ∈ seen ∨ L ∈ labs) := by
        constructor
        · rintro (h | h)
          · exact Or.inl h
          · rcases List.mem_cons.mp h with rfl | h
            · exact Or.inl hx
            · exact Or.inr h
        · rintro (h | h)
          · exact Or.inl h
          · exact Or.inr (List.mem_cons_of_mem x h)
      by_cases hc : L ∈ seen ∨ L ∈ labs
      · rw [if_pos hc, if_pos (this.mpr hc)]
      · rw [if_neg hc, if_neg (fun h => hc (this.mp h))]
    · rw [if_neg hx, if_neg hx, ih]
      have : (L ∈ x :: seen ∨ L ∈ labs) ↔ (L ∈ seen ∨ L ∈ x :: labs) := by
        constructor
        · rintro (h | h)
          · rcases List.mem_cons.mp h with rfl | h
            · exact Or.inr (List.mem_cons_self L labs)
            · exact Or.inl h
          · exact Or.inr (List.mem_cons_of_mem x h)
        · rintro (h | h)
          · exact Or.inl (List.mem_cons_of_mem x h)
          · rcases List.mem_cons.mp h with rfl | h
            · exact Or.inl (List.mem_cons_self L seen)
            · exact Or.inr h
      by_cases hc : L ∈ x :: seen ∨ L ∈ labs
      · rw [if_pos hc, if_pos (this.mp hc), List.cons_append]
      · rw [if_neg hc, if_neg (fun h => hc (this.mpr h)), List.cons_append]

theorem firstAppear_snoc (labs : List Int) (L : Int) :
    firstAppear (labs ++ [L])
      = firstAppear labs ++ (if L ∈ labs then [] else [L]) := by
  unfold firstAppear
  rw [faAux_snoc]
  by_cases hL : L ∈ labs
  · rw [if_pos hL, if_pos (Or.inr hL)]
  · rw [if_neg hL, if_neg (by simp [hL])]

theorem mem_firstAppear (labs : List Int) (x : Int) :
    x ∈ firstAppear labs ↔ x ∈ labs := by
  unfold firstAppear
  rw [mem_faAux]
  simp

theorem firstAppear_nodup (labs : List Int) : (firstAppear labs).Nodup :=
  faAux_nodup labs []

theorem positionsOf_snoc (M : Int) (labs : List Int) (L : Int) :
    positionsOf M (labs ++ [L])
      = positionsOf M labs ++ (if M = L then [labs.length] else []) := by
  unfold positionsOf
  rw [List.length_append, List.length_cons]
  show (List.range (labs.length + 1)).filter _ = _
  rw [List.range_succ, List.filter_append]
  congr 1
  · apply List.filter_congr
    intro i hi
    have hilen : i < labs.length := List.mem_range.mp hi
    rw [List.getElem?_append_left hilen]
  · rw [show (List.filter (fun i => (labs ++ [L])[i]? == some M) [labs.length])
        = if (labs ++ [L])[labs.length]? == some M then [labs.length] else [] from by
      rw [List.filter_cons]; rfl]
    rw [List.getElem?_concat_length]
    by_cases hM : M = L
    · subst hM; simp
    · simp [hM, Ne.symm hM]

theorem positionsOf_eq_nil_of_not_mem {L : Int} {labs : List Int} (h : L ∉ labs) :
    positionsOf L labs = [] := by
  unfold positionsOf
  rw [List.filter_eq_nil_iff]
  intro i hi
  have hilen : i < labs.length := List.mem_range.mp hi
  rw [List.getElem?_eq_getElem hilen]
  simp only [beq_iff_eq, Option.some.injEq]
  intro hc
  exact h (hc ▸ List.getElem_mem hilen)

theorem addVertex_not_mem_keys : ∀ {m : Assoc} {lab : Int} (v : Nat),
    lab ∉ m.map Prod.fst → addVertex m lab v = m ++ [(lab, [v])] := by
  intro m
  induction m with
  | nil => intro lab v _; rfl
  | cons e m ih =>
    intro lab v h
    obtain ⟨k, vs⟩ := e
    simp only [List.map_cons, List.mem_cons] at h
    push_neg at h
    simp only [addVertex, if_neg (Ne.symm h.1), List.cons_append]
    rw [ih v h.2]

theorem addVertex_map_keyed : ∀ (ks : List Int) (g : Int → List Nat) (L : Int) (v : Nat),
    ks.Nodup → L ∈ ks →
    addVertex (ks.map (fun M => (M, g M))) L v
      = ks.map (fun M => (M, g M ++ if M = L then [v] else [])) := by
  intro ks
  induction ks with
  | nil => intro g L v _ h; cases h
  | cons M ks ih =>
    intro g L v hnd hL
    obtain ⟨hM, hnd'⟩ := List.nodup_cons.mp hnd
    simp only [List.map_cons, addVertex]
    by_cases hML : M = L
    · subst hML
      rw [if_pos rfl, if_pos rfl]
      congr 1
      apply List.map_congr_left
      intro M' hM'
      have : M' ≠ M := fun hc => hM (hc ▸ hM')
      rw [if_neg this, List.append_nil]
    · rw [if_neg hML, if_neg hML, List.append_nil]
      congr 1
      apply ih g L v hnd'
      rcases List.mem_cons.mp hL with rfl | h
      · exact absurd rfl hML
      · exact h

theorem buildAssoc_spec (labs : List Int) :
    buildAssoc labs 0 []
      = (firstAppear labs).map (fun L => (L, positionsOf L labs)) := by
  induction labs using List.reverseRecOn with
  | nil => rfl
  | append_singleton xs L ih =>
    rw [buildAssoc_append, firstAppear_snoc]
    show addVertex (buildAssoc xs 0 []) L (0 + xs.length) = _
    rw [ih]
    have hz : 0 + xs.length = xs.length := by omega
    rw [hz]
    by_cases hL : L ∈ xs
    · rw [addVertex_map_keyed (firstAppear xs) (fun M => positionsOf M xs) L xs.length
        (firstAppear_nodup xs) ((mem_firstAppear xs L).mpr hL)]
      rw [if_pos hL, List.append_nil]
      apply List.map_congr_left
      intro M _
      rw [positionsOf_snoc]
    · have hkeys : L ∉ (List.map (fun L => (L, positionsOf L xs)) (firstAppear xs)).map
          Prod.fst := by
        rw [List.map_map]
        intro hc
        obtain ⟨M, hM, hMe⟩ := List.mem_map.mp hc
        have hML : M = L := hMe
        subst hML
        exact hL ((mem_firstAppear xs M).mp hM)
      rw [addVertex_not_mem_keys xs.length hkeys, if_neg hL, List.map_append]
      congr 1
      · apply List.map_congr_left
        intro M hM
        have hMxs : M ∈ xs := (mem_firstAppear xs M).mp hM
        have hML : M ≠ L := fun hc => hL (hc ▸ hMxs)
        rw [positionsOf_snoc, if_neg hML, List.append_nil]
      · simp only [List.map_cons, List.map_nil]
        rw [positionsOf_snoc, if_pos rfl, positionsOf_eq_nil_of_not_mem hL,
          List.nil_append]

/-- Reading lines whose labels are exactly `labs` consumes all of them and
builds the insertion-ordered grouping. -/
theorem readBody_labels : ∀ (B : List Line) (labs : List Int),
    B.map pyInt = labs.map some →
    ∀ (v : Nat) (m : Assoc), readBody B.length v m B = .ok (buildAssoc labs v m, []) := by
  intro B
  induction B with
  | nil =>
    intro labs h v m
    obtain rfl : labs = [] := by
      cases labs with
      | nil => rfl
      | cons a as => cases h
    rfl
  | cons l B ih =>
    intro labs h v m
    cases labs with
    | nil => cases h
    | cons lab labs =>
      simp only [List.map_cons, List.cons.injEq] at h
      simp only [List.length_cons, readBody_cons, h.1]
      exact ih labs h.2 (v + 1) (addVertex m lab v)

/-- Parsing a single well-formed section groups the vertex indices by label,
in first-appearance order of the distinct labels. -/
theorem parse_header_body (hline : Line) (body : List Line) (z : Int) (labs : List Int)
    (hh : isHeaderLine (rstripLF hline) = true)
    (hz : headerN (rstripLF hline) = .ok z)
    (hlen : body.length = z.toNat)
    (hlabs : body.map (fun l => pyInt (rstripLF l)) = labs.map some) :
    parse_pajek_communities (hline :: body)
      = .ok ((firstAppear labs).map (fun L => positionsOf L labs)) := by
  rw [parse_cons_header_eq _ _ hh, hz]
  simp only [ebind_ok]
  have hmap : (body.map rstripLF).map pyInt = labs.map some := by
    rw [List.map_map]
    exact hlabs
  have hzn : z.toNat = (body.map rstripLF).length := by simp [← hlen]
  rw [hzn, readBody_labels (body.map rstripLF) labs hmap 0 []]
  simp only [ebind_ok, parseLoopF_nil_some]
  show Except.ok ((buildAssoc labs 0 []).map Prod.snd) = _
  rw [buildAssoc_spec, List.map_map]
  rfl

/-! ### Claim theorems: grouping order -/

/-- C6: for a well-formed single-section input, the Communities of the
parsed Partition are, in first-appearance order of the distinct labels, the
ascending lists of positions at which each label occurs; in particular a
label seen again is appended to its existing Community. -/
theorem c6_first_appearance (hline : Line) (body : List Line) (z : Int) (labs : List Int)
    (hh : isHeaderLine (rstripLF hline) = true)
    (hz : headerN (rstripLF hline) = .ok z)
    (hlen : body.length = z.toNat)
    (hlabs : body.map (fun l => pyInt (rstripLF l)) = labs.map some) :
    parse_pajek_communities (hline :: body)
      = .ok ((firstAppear labs).map (fun L => positionsOf L labs)) :=
  parse_header_body hline body z labs hh hz hlen hlabs

/-- Witness for C6: the spec's `3,1,3,1` example parses to `[[0,2],[1,3]]`,
community of label 3 first because it appeared first. -/
theorem c6_witness :
    parse_pajek_communities ("*Vertices 4".toList :: ["3", "1", "3", "1"].map String.toList)
      = .ok [[0, 2], [1, 3]] :=
  (c6_first_appearance ("*Vertices 4".toList) (["3", "1", "3", "1"].map String.toList)
    4 [3, 1, 3, 1] (by decide) rfl (by decide) rfl).trans rfl

/-! ### The round trip for canonical partitions -/

theorem firstAppear_map_range (f : Nat → Int) : ∀ N : Nat,
    firstAppear ((List.range N).map f)
      = ((List.range N).filter (fun i => decide (∀ j, j < i → f j ≠ f i))).map f := by
  intro N
  induction N with
  | zero => rfl
  | succ N ih =>
    rw [List.range_succ, List.map_append, List.filter_append]
    simp only [List.map_cons, List.map_nil]
    rw [firstAppear_snoc, ih, List.map_append]
    congr 1
    rw [List.filter_cons]
    by_cases hnew : ∀ j, j < N → f j ≠ f N
    · have hnot : f N ∉ (List.range N).map f := by
        intro hc
        obtain ⟨j, hj, hje⟩ := List.mem_map.mp hc
        exact hnew j (List.mem_range.mp hj) hje
      rw [if_neg hnot, if_pos (decide_eq_true hnew)]
      rfl
    · have hmem : f N ∈ (List.range N).map f := by
        push_neg at hnew
        obtain ⟨j, hj, hje⟩ := hnew
        exact List.mem_map.mpr ⟨j, List.mem_range.mpr hj, hje⟩
      have hnew' : ¬ ∀ j, j < N → f j ≠ f N := hnew
      rw [if_pos hmem, if_neg (fun hc => hnew' (of_decide_eq_true hc))]
      rfl

theorem headD_mem {l : List Nat} (h : l ≠ []) : l.headD 0 ∈ l := by
  cases l with
  | nil => exact absurd rfl h
  | cons a as => exact List.mem_cons_self a as

theorem headD_le {l : List Nat} (hs : l.Pairwise (· < ·)) : ∀ y ∈ l, l.headD 0 ≤ y := by
  cases l with
  | nil => intro y hy; cases hy
  | cons a as =>
    intro y hy
    rcases List.mem_cons.mp hy with rfl | hy
    · exact le_refl y
    · exact Nat.le_of_lt ((List.pairwise_cons.mp hs).1 y hy)

/-- The community search is determined by membership: the owner of a vertex
that belongs to the list at index `j` is `j` (given global nodup). -/
theorem ownerIdx_eq_of_mem {P : List (List Nat)} (hnd : P.flatten.Nodup)
    {i j : Nat} {l : List Nat} (hj : P[j]? = some l) (hmem : i ∈ l) :
    ownerIdx P i = j := by
  have hlP : l ∈ P := List.getElem?_mem hj
  have hfl : i ∈ P.flatten := List.mem_flatten.mpr ⟨l, hlP, hmem⟩
  obtain ⟨j0, hj0⟩ := findCommunity_isSome_of_mem_flatten hfl
  obtain ⟨l0, hl0, hml0⟩ := findCommunity_mem hj0
  have hjj : j = j0 :=
    mem_unique_of_disjoint (List.nodup_flatten.mp hnd).2 hj hl0 hmem hml0
  rw [ownerIdx, hj0]
  simp [hjj]

theorem ownerIdx_mem (P : List (List Nat)) (h1 : I1 P) {i : Nat} (hi : i < nVerts P) :
    ∃ l, P[ownerIdx P i]? = some l ∧ i ∈ l := by
  obtain ⟨hnd, hub, hlb⟩ := h1
  obtain ⟨j, hj⟩ := findCommunity_isSome_of_mem_flatten (hlb i hi)
  obtain ⟨l, hl, hml⟩ := findCommunity_mem hj
  refine ⟨l, ?_, hml⟩
  rw [ownerIdx, hj]
  exact hl

theorem filter_firstOcc_eq_heads (P : List (List Nat)) (h1 : I1 P)
    (hne : ∀ l ∈ P, l ≠ []) (hsort : ∀ l ∈ P, l.Pairwise (· < ·))
    (hmin : (P.map (fun l => l.headD 0)).Pairwise (· < ·)) :
    (List.range (nVerts P)).filter
        (fun i => decide (∀ j, j < i → (ownerIdx P j : Int) + 1 ≠ (ownerIdx P i : Int) + 1))
      = P.map (fun l => l.headD 0) := by
  obtain ⟨hnd, hub, hlb⟩ := h1
  haveI : IsAntisymm Nat (· < ·) := ⟨fun a b h1 h2 => absurd h1 (Nat.lt_asymm h2)⟩
  have hmemiff : ∀ x,
      x ∈ (List.range (nVerts P)).filter
        (fun i => decide (∀ j, j < i → (ownerIdx P j : Int) + 1 ≠ (ownerIdx P i : Int) + 1))
      ↔ x ∈ P.map (fun l => l.headD 0) := by
    intro x
    rw [List.mem_filter, List.mem_range, decide_eq_true_eq, List.mem_map]
    constructor
    · rintro ⟨hxN, hfirst⟩
      obtain ⟨l, hl, hxl⟩ := ownerIdx_mem P ⟨hnd, hub, hlb⟩ hxN
      have hlP : l ∈ P := List.getElem?_mem hl
      refine ⟨l, hlP, ?_⟩
      have hh0 : l.headD 0 ∈ l := headD_mem (hne l hlP)
      have hh0le : l.headD 0 ≤ x := headD_le (hsort l hlP) x hxl
      have hoeq : ownerIdx P (l.headD 0) = ownerIdx P x :=
        (ownerIdx_eq_of_mem hnd hl hh0).trans (ownerIdx_eq_of_mem hnd hl hxl).symm
      by_contra hne0
      have hlt : l.headD 0 < x := Nat.lt_of_le_of_ne hh0le hne0
      exact hfirst (l.headD 0) hlt (by rw [hoeq])
    · rintro ⟨l, hlP, rfl⟩
      have hh0 : l.headD 0 ∈ l := headD_mem (hne l hlP)
      have hxN : l.headD 0 < nVerts P := hub _ (List.mem_flatten.mpr ⟨l, hlP, hh0⟩)
      obtain ⟨jx, hjx, hjxe⟩ := List.mem_iff_getElem.mp hlP
      have hgetx : P[jx]? = some l := by rw [List.getElem?_eq_getElem hjx, hjxe]
      refine ⟨hxN, ?_⟩
      intro j hj hc
      have hoeq : ownerIdx P j = ownerIdx P (l.headD 0) := by omega
      have hjN : j < nVerts P := lt_trans hj hxN
      obtain ⟨lj, hlj, hjlj⟩ := ownerIdx_mem P ⟨hnd, hub, hlb⟩ hjN
      have hox : ownerIdx P (l.headD 0) = jx := ownerIdx_eq_of_mem hnd hgetx hh0
      rw [hoeq, hox] at hlj
      have hljl : lj = l := by
        rw [hgetx] at hlj
        injection hlj with h2
        exact h2.symm
      have hjl : j ∈ l := hljl ▸ hjlj
      have : l.headD 0 ≤ j := headD_le (hsort l hlP) j hjl
      omega
  have hnd1 : ((List.range (nVerts P)).filter
      (fun i => decide (∀ j, j < i → (ownerIdx P j : Int) + 1 ≠ (ownerIdx P i : Int) + 1))).Nodup :=
    List.Pairwise.filter _ ((List.pairwise_lt_range _).imp Nat.ne_of_lt)
  have hnd2 : (P.map (fun l => l.headD 0)).Nodup := hmin.imp (fun h => Nat.ne_of_lt h)
  have hs1 : List.Sorted (· < ·) ((List.range (nVerts P)).filter
      (fun i => decide (∀ j, j < i → (ownerIdx P j : Int) + 1 ≠ (ownerIdx P i : Int) + 1))) :=
    List.Pairwise.filter _ (List.pairwise_lt_range _)
  have hs2 : List.Sorted (· < ·) (P.map (fun l => l.headD 0)) := hmin
  exact List.eq_of_perm_of_sorted ((List.perm_ext_iff_of_nodup hnd1 hnd2).mpr hmemiff) hs1 hs2

theorem map_f_heads (P : List (List Nat)) (h1 : I1 P) (hne : ∀ l ∈ P, l ≠ []) :
    (P.map (fun l => l.headD 0)).map (fun i => (ownerIdx P i : Int) + 1)
      = (List.range P.length).map (fun (j : Nat) => (j : Int) + 1) := by
  obtain ⟨hnd, hub, hlb⟩ := h1
  apply List.ext_getElem
  · simp only [List.length_map, List.length_range]
  · intro j hj1 hj2
    simp only [List.getElem_map, List.getElem_range]
    have hjP : j < P.length := by simpa using hj1
    have hget : P[j]? = some P[j] := List.getElem?_eq_getElem hjP
    have hh0 : P[j].headD 0 ∈ P[j] := headD_mem (hne P[j] (List.getElem_mem hjP))
    have : ownerIdx P (P[j].headD 0) = j := ownerIdx_eq_of_mem hnd hget hh0
    rw [this]

theorem positions_canonical (P : List (List Nat)) (h1 : I1 P)
    (hsort : ∀ l ∈ P, l.Pairwise (· < ·)) {j : Nat} (hj : j < P.length) :
    positionsOf ((j : Int) + 1)
        ((List.range (nVerts P)).map (fun i => (ownerIdx P i : Int) + 1))
      = P.getD j [] := by
  obtain ⟨hnd, hub, hlb⟩ := h1
  haveI : IsAntisymm Nat (· < ·) := ⟨fun a b h1 h2 => absurd h1 (Nat.lt_asymm h2)⟩
  have hPj : P.getD j [] = P[j] := by
    rw [List.getD_eq_getElem?_getD, List.getElem?_eq_getElem hj, Option.getD_some]
  unfold positionsOf
  rw [List.length_map, List.length_range]
  have hfc : (List.range (nVerts P)).filter
      (fun i => ((List.range (nVerts P)).map (fun i => (ownerIdx P i : Int) + 1))[i]?
        == some ((j : Int) + 1))
      = (List.range (nVerts P)).filter (fun i => decide (ownerIdx P i = j)) := by
    apply List.filter_congr
    intro i hi
    have hiN : i < nVerts P := List.mem_range.mp hi
    rw [List.getElem?_map, List.getElem?_range hiN]
    show (some ((ownerIdx P i : Int) + 1) == some ((j : Int) + 1)) = decide (ownerIdx P i = j)
    have hiff : ((ownerIdx P i : Int) + 1 = (j : Int) + 1) ↔ ownerIdx P i = j := by omega
    by_cases h : ownerIdx P i = j
    · simp [h]
    · have : ¬ ((ownerIdx P i : Int) + 1 = (j : Int) + 1) := fun hc => h (hiff.mp hc)
      simp [h, this]
  rw [hfc, hPj]
  have hmemiff : ∀ i,
      i ∈ (List.range (nVerts P)).filter (fun i => decide (ownerIdx P i = j))
      ↔ i ∈ P[j] := by
    intro i
    rw [List.mem_filter, List.mem_range, decide_eq_true_eq]
    constructor
    · rintro ⟨hiN, hoi⟩
      obtain ⟨l, hl, hil⟩ := ownerIdx_mem P ⟨hnd, hub, hlb⟩ hiN
      rw [hoi, List.getElem?_eq_getElem hj] at hl
      have : l = P[j] := by
        injection hl with h2
        exact h2.symm
      subst this
      exact hil
    · intro hiPj
      have hiN : i < nVerts P :=
        hub i (List.mem_flatten.mpr ⟨P[j], List.getElem_mem hj, hiPj⟩)
      exact ⟨hiN, ownerIdx_eq_of_mem hnd (List.getElem?_eq_getElem hj) hiPj⟩
  have hnd1 : ((List.range (nVerts P)).filter (fun i => decide (ownerIdx P i = j))).Nodup :=
    List.Pairwise.filter _ ((List.pairwise_lt_range _).imp Nat.ne_of_lt)
  have hnd2 : P[j].Nodup := (List.nodup_flatten.mp hnd).1 P[j] (List.getElem_mem hj)
  have hs1 : List.Sorted (· < ·)
      ((List.range (nVerts P)).filter (fun i => decide (ownerIdx P i = j))) :=
    List.Pairwise.filter _ (List.pairwise_lt_range _)
  have hs2 : List.Sorted (· < ·) P[j] := hsort P[j] (List.getElem_mem hj)
  exact List.eq_of_perm_of_sorted ((List.perm_ext_iff_of_nodup hnd1 hnd2).mpr hmemiff) hs1 hs2

theorem map_getD_range_eq (P : List (List Nat)) :
    (List.range P.length).map (fun j => P.getD j []) = P := by
  apply List.ext_getElem
  · simp
  · intro j hj1 hj2
    simp only [List.getElem_map, List.getElem_range]
    rw [List.getD_eq_getElem?_getD, List.getElem?_eq_getElem (by simpa using hj2),
      Option.getD_some]

theorem rstripLF_headerLine (N : Nat) : rstripLF (headerLine N) = headerLine N := by
  apply rstripLF_eq_self
  intro c hc
  unfold headerLine at hc
  rcases List.mem_append.mp hc with hc | hc
  · intro hcon
    subst hcon
    revert hc
    decide
  · exact isDigit_not_lf ((natRepr_spec N).1 c hc)

theorem headerN_headerLine (N : Nat) : headerN (headerLine N) = .ok (N : Int) := by
  unfold headerN headerLine
  have hws : "*Vertices ".toList = "*Vertices".toList ++ [' '] := by decide
  have hsplit : pySplit ("*Vertices ".toList ++ natRepr N)
      = ["*Vertices".toList, natRepr N] := by
    rw [hws, List.append_assoc]
    exact pySplit_two_words (by decide) (by decide)
      (fun c hc => isDigit_not_space ((natRepr_spec N).1 c hc)) (natRepr_spec N).2.1
  rw [hsplit]
  simp [pyInt_natRepr]

/-! ### Claim theorems: the round trip -/

/-- C1 counterexample: `[[1],[0]]` satisfies I1, but `parse(generate(P))` is
`[[0],[1]]`, not `P`: re-parsing orders communities by first appearance,
i.e. by their minimum vertex, not by their original positions. -/
theorem c1_counterexample :
    I1 [[1], [0]]
    ∧ (generate_pajek_communities [[1], [0]]).map parse_pajek_communities
        = some (.ok [[0], [1]])
    ∧ [[0], [1]] ≠ [[1], [0]] :=
  ⟨by decide, rfl, by decide⟩

/-- C1 (amended): for a Partition satisfying I1 in which every Community is
nonempty and sorted ascending and the Communities are ordered by their least
vertex indices, `parse(generate(P))` is structurally equal to `P`. -/
theorem c1_roundtrip (P : List (List Nat)) (h1 : I1 P)
    (hne : ∀ l ∈ P, l ≠ []) (hsort : ∀ l ∈ P, l.Pairwise (· < ·))
    (hmin : (P.map (fun l => l.headD 0)).Pairwise (· < ·)) :
    ∃ ls, generate_pajek_communities P = some ls
      ∧ parse_pajek_communities ls = .ok P := by
  refine ⟨_, generate_spec P h1, ?_⟩
  have hparse := parse_header_body (headerLine (nVerts P))
    ((List.range (nVerts P)).map (fun i => natRepr (ownerIdx P i + 1)))
    ((nVerts P : Int))
    ((List.range (nVerts P)).map (fun i => (ownerIdx P i : Int) + 1))
    (by rw [rstripLF_headerLine]; exact isHeaderLine_headerLine _)
    (by rw [rstripLF_headerLine]; exact headerN_headerLine _)
    (by simp)
    (by
      rw [List.map_map, List.map_map]
      apply List.map_congr_left
      intro i _
      show pyInt (rstripLF (natRepr (ownerIdx P i + 1))) = some ((ownerIdx P i : Int) + 1)
      rw [rstripLF_eq_self (fun c hc => isDigit_not_lf ((natRepr_spec _).1 c hc)),
        pyInt_natRepr]
      norm_cast)
  rw [hparse]
  congr 1
  rw [firstAppear_map_range, filter_firstOcc_eq_heads P h1 hne hsort hmin,
    map_f_heads P h1 hne, List.map_map]
  have hcongr : ∀ j ∈ List.range P.length,
      ((fun L => positionsOf L ((List.range (nVerts P)).map
          (fun i => (ownerIdx P i : Int) + 1))) ∘ fun j : Nat => (j : Int) + 1) j
        = P.getD j [] := by
    intro j hj
    exact positions_canonical P h1 hsort (List.mem_range.mp hj)
  rw [List.map_congr_left hcongr, map_getD_range_eq]

/-- Witness for the amended C1 at the spec's round-trip example. -/
theorem c1_witness :
    ∃ ls, generate_pajek_communities [[0, 2], [1, 3]] = some ls
      ∧ parse_pajek_communities ls = .ok [[0, 2], [1, 3]] :=
  c1_roundtrip [[0, 2], [1, 3]] (by decide) (by decide) (by decide) (by decide)

end PajekClu
